import Mathlib

/-!
Shallow embedding of the htcpp HTTP/1.1 library core (src/http.cpp,
src/server.hpp, src/client.hpp) together with proofs checking the
natural-language specification against it.

Strings from the C++ code are modelled as `List Char` (all inputs of
interest are ASCII), wrapped into `String` at the API boundary.
`std::string_view::find`/`rfind`/`substr` are modelled by explicit index
scans and `List.take`/`List.drop`.  Loops of the source are modelled by
structural recursion on a fuel argument that is always instantiated with
a bound large enough for the loop (each loop consumes at least one byte
per iteration), so every definition evaluates by kernel reduction.
-/

/-! ## Generic scanning helpers (models of std::string_view find / rfind) -/

/-- Index of the first character satisfying `p`, like `string_view::find(ch)`
(`none` plays the role of `npos`). -/
def fIdx (p : Char → Bool) : List Char → Option Nat
  | [] => none
  | x :: xs => if p x then some 0 else (fIdx p xs).map (· + 1)

/-- `string_view::find(ch, start)`: first index `≥ start` whose character
satisfies `p`; the returned index is absolute. -/
def fIdxFrom (p : Char → Bool) (l : List Char) (start : Nat) : Option Nat :=
  (fIdx p (l.drop start)).map (· + start)

/-- Auxiliary scan for substring search; `i` is the absolute index of the
head of the current suffix. -/
def fSubAux (pat : List Char) : List Char → Nat → Option Nat
  | [], i => if pat = [] then some i else none
  | l@(_ :: xs), i => if pat.isPrefixOf l then some i else fSubAux pat xs (i + 1)

/-- `string_view::find(pat, start)`: smallest absolute index `≥ start` at
which `pat` occurs as a substring. -/
def fSubFrom (pat l : List Char) (start : Nat) : Option Nat :=
  fSubAux pat (l.drop start) start

/-- `string::rfind(ch)`: index of the last occurrence of `c`. -/
def rfindIdx (c : Char) : List Char → Option Nat
  | [] => none
  | x :: xs =>
    match rfindIdx c xs with
    | some i => some (i + 1)
    | none => if x = c then some 0 else none

/-! ## removeDotSegments (src/http.cpp, lines 34-81)

The C++ loop walks the input segment by segment, where a segment is a `/`
followed by zero or more non-`/` bytes.  `rdsRun` is the loop with the
output accumulator; the fuel is instantiated with the input length, which
is enough because every iteration consumes at least one input byte. -/

/-- One iteration body of the removeDotSegments loop: drop a `/.` segment,
for `/..` truncate the output at its last `/` (`output.rfind('/')` followed
by `output.resize`; when the output has no slash it is left unchanged, the
source asserts it is empty there), and append any other segment. -/
def processSeg (output seg : List Char) : List Char :=
  if seg = ['/', '.'] then output
  else if seg = ['/', '.', '.'] then
    match rfindIdx '/' output with
    | some i => output.take i
    | none => output
  else output ++ seg

/-- The removeDotSegments loop (`while (!input.empty())`).  For input
`c :: rest`, `input.find('/', 1)` is `fIdx (· = '/') rest` shifted by one:
segment length `j + 1` means segment `c :: rest.take j` and remaining input
`rest.drop j`. -/
def rdsRun : Nat → List Char → List Char → List Char
  | _, [], output => output
  | 0, _ :: _, output => output
  | fuel + 1, c :: rest, output =>
    if c :: rest = ['/'] then output ++ ['/']
    else
      match fIdx (· = '/') rest with
      | none => processSeg output (c :: rest)
      | some j => rdsRun fuel (rest.drop j) (processSeg output (c :: rest.take j))

/-- `removeDotSegments` on character lists: run the loop, then emit `/` if
the output is empty. -/
def removeDotSegmentsL (input : List Char) : List Char :=
  let output := rdsRun input.length input []
  if output = [] then ['/'] else output

/-- `removeDotSegments` (src/http.cpp, lines 34-81). -/
def removeDotSegments (s : String) : String := ⟨removeDotSegmentsL s.data⟩

/-! ## Segment decomposition and the specification-level algorithm

`segsOf` splits an input into its maximal chunks each starting at a `/`
(for inputs that begin with `/` these are exactly the RFC 3986 segments
with their leading slash, the trailing bare `/` kept as its own chunk).
`rdsSpec` is the algorithm as the specification words it: walk the
segments, drop `/.`, drop `/..` while truncating the output at its last
`/`, append every other segment verbatim, emit `/` for an empty output. -/

/-- Segment splitter (same scanning scheme as the loop in the source). -/
def segsRun : Nat → List Char → List (List Char)
  | _, [] => []
  | 0, l => [l]
  | fuel + 1, c :: rest =>
    match fIdx (· = '/') rest with
    | none => [c :: rest]
    | some j => (c :: rest.take j) :: segsRun fuel (rest.drop j)

/-- The list of segments of `l` (each segment carries its leading `/`). -/
def segsOf (l : List Char) : List (List Char) := segsRun l.length l

/-- Specification wording of the per-segment step: drop each `/.` segment,
drop each `/..` segment while also truncating the output at its last `/`,
append every other segment verbatim. -/
def specSegStep (output seg : List Char) : List Char :=
  if seg = ['/', '.'] then output
  else if seg = ['/', '.', '.'] then
    match rfindIdx '/' output with
    | some i => output.take i
    | none => output
  else output ++ seg

/-- Specification-level remove-dot-segments: fold the per-segment step over
the segments and emit `/` when the output would be empty. -/
def rdsSpecL (input : List Char) : List Char :=
  let output := (segsOf input).foldl specSegStep []
  if output = [] then ['/'] else output

/-- Specification-level remove-dot-segments on strings. -/
def rdsSpec (s : String) : String := ⟨rdsSpecL s.data⟩

/-- `true` iff some segment of `p` is `/.` or `/..` (used to state the
"contains no `/./` or `/../` segments" invariant). -/
def hasDotSegments (p : List Char) : Bool :=
  (segsOf p).any fun seg => seg = ['/', '.'] || seg = ['/', '.', '.']

/-! ## URL parser (src/http.cpp, lines 83-173) -/

/-- `isAlphaNum` (src/http.cpp, line 83-86), translated with the source's
exact comparison structure, including the `(ch >= 'A' || ch <= 'Z')`
disjunction in the last clause. -/
def isAlphaNum (ch : Char) : Bool :=
  (ch ≥ 'a' && ch ≤ 'z') || (ch ≥ '0' && ch ≤ '9') || (ch ≥ 'A' || ch ≤ 'Z')

/-- `isSchemeChar` (src/http.cpp, lines 88-91). -/
def isSchemeChar (ch : Char) : Bool :=
  isAlphaNum ch || ch = '+' || ch = '.' || ch = '-'

/-- The `Url` struct.  Its definition lives in http.hpp, which is not under
src/; the fields below are the ones assigned by `Url::parse` in
src/http.cpp.  Modelled from the spec: for the asterisk form the spec says
parse returns "a URL with the asterisk path and all other fields empty",
the asterisk form being "representable as a distinct path value", so the
`path` default used by the early `return url` of the `"*"` branch is
modelled as `"*"`.  The client-only fields (scheme, host, port) are never
assigned by `Url::parse` and are not modelled. -/
structure Url where
  fullRaw : String
  path : String := "*"
  query : Option String := none
  params : Option String := none
  fragment : Option String := none
deriving DecidableEq, Repr

/-- Final block of `Url::parse` (src/http.cpp, lines 165-172): the
remainder must begin with `/`, and the path is its remove-dot-segments
normalization.  `full` is the original input (for `fullRaw`). -/
def urlFinish (full rem : List Char) (query params fragment : Option String) :
    Option Url :=
  match rem with
  | '/' :: _ =>
    some { fullRaw := ⟨full⟩, path := ⟨removeDotSegmentsL rem⟩,
           query := query, params := params, fragment := fragment }
  | _ => none

/-- Params split of `Url::parse` (src/http.cpp, lines 158-163). -/
def urlParams (full rem : List Char) (query fragment : Option String) :
    Option Url :=
  match fIdx (· = ';') rem with
  | some i => urlFinish full (rem.take i) query (some ⟨rem.drop (i + 1)⟩) fragment
  | none => urlFinish full rem query none fragment

/-- Query split of `Url::parse` (src/http.cpp, lines 151-156). -/
def urlQuery (full rem : List Char) (fragment : Option String) : Option Url :=
  match fIdx (· = '?') rem with
  | some i => urlParams full (rem.take i) (some ⟨rem.drop (i + 1)⟩) fragment
  | none => urlParams full rem none fragment

/-- Authority skip of `Url::parse` (src/http.cpp, lines 143-149), kept
exactly as written in the source:
`urlStr = urlStr.substr(2, urlStr.find("/", 2))`, i.e. the absolute index
of the next slash is used as the *length* of the piece kept after
dropping the two leading slashes. -/
def urlAuthority (full rem : List Char) (fragment : Option String) : Option Url :=
  if 2 ≤ rem.length ∧ rem.take 2 = ['/', '/'] then
    match fIdxFrom (· = '/') rem 2 with
    | some i => urlQuery full ((rem.drop 2).take i) fragment
    | none => urlQuery full (rem.drop 2) fragment
  else urlQuery full rem fragment

/-- Scheme drop of `Url::parse` (src/http.cpp, lines 125-141): when a
colon is present and every byte before it passes `isSchemeChar`, drop the
bytes up to and including the colon. -/
def urlScheme (full rem : List Char) (fragment : Option String) : Option Url :=
  match fIdx (· = ':') rem with
  | some colon =>
    if (rem.take colon).all isSchemeChar then
      urlAuthority full (rem.drop (colon + 1)) fragment
    else urlAuthority full rem fragment
  | none => urlAuthority full rem fragment

/-- Fragment split of `Url::parse` (src/http.cpp, lines 108-117),
including the emptiness check that follows it. -/
def urlFragment (l : List Char) : Option Url :=
  match fIdx (· = '#') l with
  | some i =>
    if l.take i = [] then none
    else urlScheme l (l.take i) (some ⟨l.drop (i + 1)⟩)
  | none => if l = [] then none else urlScheme l l none

/-- `Url::parse` (src/http.cpp, lines 94-173) on character lists: the
`"*"` early return, then the fragment / scheme / authority / query /
params stages. -/
def urlParseL (l : List Char) : Option Url :=
  if l = ['*'] then some { fullRaw := ⟨l⟩ } else urlFragment l

/-- `Url::parse` on strings. -/
def Url.parse (s : String) : Option Url := urlParseL s.data

/-! ## HTTP request parsing (src/http.cpp, lines 7-31 and 175-259) -/

/-- The `Method` enum. -/
inductive Method where
  | get | head | post | put | delete | connect | options | trace | patch
deriving DecidableEq, Repr

/-- `parseMethod` (src/http.cpp, lines 7-31). -/
def parseMethod (method : List Char) : Option Method :=
  if method = "GET".data then some .get
  else if method = "HEAD".data then some .head
  else if method = "POST".data then some .post
  else if method = "PUT".data then some .put
  else if method = "DELETE".data then some .delete
  else if method = "CONNECT".data then some .connect
  else if method = "OPTIONS".data then some .options
  else if method = "TRACE".data then some .trace
  else if method = "PATCH".data then some .patch
  else none

/-- Modelled from the spec: `toString(Method)` is declared in the missing
http.hpp; the spec says the string form is uppercase ASCII. -/
def Method.str : Method → String
  | .get => "GET"
  | .head => "HEAD"
  | .post => "POST"
  | .put => "PUT"
  | .delete => "DELETE"
  | .connect => "CONNECT"
  | .options => "OPTIONS"
  | .trace => "TRACE"
  | .patch => "PATCH"

/-- Modelled from the spec: `HeaderMap` is defined in the missing http.hpp.
The spec describes it as an ordered multimap from header name to value,
case-insensitive for lookup with names preserved on serialize, with
`add` appending, `get` returning the first match, and `serialize`
appending one `"<name>: <value>\r\n"` line per entry. -/
structure HeaderMap where
  entries : List (String × String) := []
deriving DecidableEq, Repr

/-- ASCII case-insensitive name comparison used by `HeaderMap` lookup. -/
def nameEq (a b : String) : Bool :=
  a.data.map Char.toLower = b.data.map Char.toLower

/-- `HeaderMap::add`: append an entry. -/
def HeaderMap.add (m : HeaderMap) (name value : String) : HeaderMap :=
  ⟨m.entries ++ [(name, value)]⟩

/-- `HeaderMap::get`: value of the first entry whose name matches
case-insensitively. -/
def HeaderMap.get (m : HeaderMap) (name : String) : Option String :=
  (m.entries.find? fun e => nameEq e.1 name).map (·.2)

/-- `HeaderMap::contains`. -/
def HeaderMap.contains (m : HeaderMap) (name : String) : Bool :=
  (m.get name).isSome

/-- `HeaderMap::serialize`: append `"<name>: <value>\r\n"` for each entry. -/
def HeaderMap.serialize (m : HeaderMap) : String :=
  m.entries.foldl (fun acc e => acc ++ e.1 ++ ": " ++ e.2 ++ "\r\n") ""

/-- `isHttpWhitespace` (declared in the missing http.hpp; the spec defines
HTTP whitespace as space and horizontal tab). -/
def isHttpWhitespace (c : Char) : Bool := c = ' ' || c = '\t'

/-- The `Request` struct (declared in http.hpp; the fields are those used
by src/http.cpp and src/server.hpp).  `requestLine` and `body` are
string_views that are default-constructed (empty) unless assigned. -/
structure Request where
  method : Method := .get
  url : Url := { fullRaw := "" }
  version : String := ""
  requestLine : String := ""
  headers : HeaderMap := {}
  body : String := ""
deriving DecidableEq, Repr

/-- The header-parsing loop of `Request::parse` (src/http.cpp, lines
228-256): while `lineStart` is inside the buffer, read a `\r\n`-terminated
line; an empty line breaks out of the loop; otherwise the line must
contain `:`, the name is the part before the colon, the value starts after
the colon once HTTP whitespace is skipped and ends at the next HTTP
whitespace byte.  Each iteration moves `lineStart` past the line's
`\r\n`, so a fuel of the buffer length is enough; the fuel-exhausted case
is unreachable for the fuel used by `Request.parse`. -/
def parseHeaderLines : Nat → List Char → Nat → HeaderMap → Option HeaderMap
  | 0, _, _, headers => some headers
  | fuel + 1, requestStr, lineStart, headers =>
    if lineStart < requestStr.length then
      match fSubFrom ['\r', '\n'] requestStr lineStart with
      | none => none
      | some lineEnd =>
        if lineStart = lineEnd then some headers
        else
          let line := (requestStr.drop lineStart).take (lineEnd - lineStart)
          match fIdx (· = ':') line with
          | none => none
          | some colon =>
            let name := line.take colon
            let afterColon := line.drop (colon + 1)
            let rest := afterColon.dropWhile isHttpWhitespace
            let value := rest.takeWhile (fun c => !isHttpWhitespace c)
            parseHeaderLines fuel requestStr (lineEnd + 2)
              (headers.add ⟨name⟩ ⟨value⟩)
    else some headers

/-- `Request::parse` (src/http.cpp, lines 175-259).  `maxUrlLength` is
`Config::get().maxUrlLength` (config.hpp is not under src/, so the limit
is passed as a parameter).  Translation notes, all mirroring the source
exactly: the URI scan is bounded by `maxUrlLength`; the version must be 8
bytes, start with `"HTTP/1."` and end in `'0'` or `'1'`; header parsing
starts at `requestLineEnd + 2` and then adds 2 more (`lineStart += 2;` in
the source); `req.requestLine` and `req.body` are never assigned and stay
default-constructed (empty). -/
def Request.parse (maxUrlLength : Nat) (requestStr : String) : Option Request :=
  let l := requestStr.data
  match fSubFrom ['\r', '\n'] l 0 with
  | none => none
  | some requestLineEnd =>
    let requestLine := l.take requestLineEnd
    match fIdx (· = ' ') requestLine with
    | none => none
    | some methodDelim =>
      match parseMethod (requestLine.take methodDelim) with
      | none => none
      | some method =>
        let urlStart := methodDelim + 1
        if requestLine.length ≤ urlStart then none
        else
          match fIdx (· = ' ') ((requestLine.drop urlStart).take maxUrlLength) with
          | none => none
          | some urlLen =>
            match urlParseL ((requestLine.drop urlStart).take urlLen) with
            | none => none
            | some url =>
              let versionStart := urlStart + urlLen + 1
              if requestLine.length < versionStart then none
              else
                let version := requestLine.drop versionStart
                if version.length = 8 ∧ version.take 7 = "HTTP/1.".data
                    ∧ (version.drop 7 = ['0'] ∨ version.drop 7 = ['1']) then
                  let lineStart := requestLineEnd + 2 + 2
                  match parseHeaderLines (l.length + 1) l lineStart {} with
                  | none => none
                  | some headers =>
                    some { method := method, url := url, version := ⟨version⟩,
                           requestLine := "", headers := headers, body := "" }
                else none

/-! ## Server session logic (src/server.hpp) -/

/-- Modelled from the spec: `parseInt<uint64_t>` of util.hpp is not under
src/; the spec only says a present but unparseable Content-Length yields
400.  Modelled as strict decimal: a nonempty all-digit string parses,
anything else fails. -/
def parseUInt (s : String) : Option Nat :=
  if s.data ≠ [] ∧ s.data.all (·.isDigit) then
    some (s.data.foldl (fun acc c => acc * 10 + (c.toNat - '0'.toNat)) 0)
  else none

/-- `Server::Session::getKeepAlive` (src/server.hpp, lines 235-252): if a
`Connection` header is present, a value containing `"close"` disables
keep-alive and otherwise a value containing `"keep-alive"` enables it;
in all remaining cases keep-alive holds iff the version is exactly
`HTTP/1.1`. -/
def getKeepAlive (request : Request) : Bool :=
  match request.headers.get "Connection" with
  | some v =>
    if (fSubFrom "close".data v.data 0).isSome then false
    else if (fSubFrom "keep-alive".data v.data 0).isSome then true
    else request.version = "HTTP/1.1"
  | none => request.version = "HTTP/1.1"

/-- What the server does right after the header `recv` completed with the
bytes of `requestHeaderBuffer_` (the body of the recv callback in
`Server::Session::readRequest`, src/server.hpp lines 163-197, after the
error/close cases): parse failure and Content-Length policy violations
answer 400; an absent Content-Length invokes the handler with the parsed
request; a Content-Length not exceeding `request_.body.size()` truncates
the body and invokes the handler; a larger one copies `request_.body`
into the body buffer, clears the request body and continues reading
(`readRequestBody`). -/
inductive HeaderReadAction where
  | respond400
  | invokeHandler (request : Request)
  | readBody (bufferedBody : String) (contentLength : Nat)
deriving DecidableEq, Repr

/-- The decision taken by the header-recv callback of
`Server::Session::readRequest` (src/server.hpp, lines 163-197). -/
def handleRequestHeaders (maxUrlLength maxRequestBodySize : Nat)
    (requestHeaderBuffer : String) : HeaderReadAction :=
  match Request.parse maxUrlLength requestHeaderBuffer with
  | none => .respond400
  | some request =>
    match request.headers.get "Content-Length" with
    | none => .invokeHandler request
    | some contentLength =>
      match parseUInt contentLength with
      | none => .respond400
      | some length =>
        if maxRequestBodySize < length then .respond400
        else if request.body.data.length < length then
          .readBody request.body length
        else
          .invokeHandler { request with body := ⟨request.body.data.take length⟩ }

/-! ## Client session (src/client.hpp)

The client session is driven by I/O completion callbacks.  The embedding
keeps the session's control flow exactly as written and lets an
environment value supply the outcome of every I/O step (resolve, socket
creation, connect, each send completion, the single header recv).  The
observable behaviour recorded is the list of completion-callback
invocations, each carrying the `std::error_code` argument (`none` for the
success code) and the `Response` argument. -/

/-- The `Response` struct (declared in the missing http.hpp; fields are
the ones the spec lists: numeric status, headers, owned body).  The
numeric default of the status is not visible in the available sources and
is modelled as 200. -/
structure Response where
  status : Nat := 200
  headers : HeaderMap := {}
  body : String := ""
deriving DecidableEq, Repr

/-- `Response::Response()` (src/http.cpp, lines 261-264): a
default-constructed response carries a `Connection: close` header. -/
def Response.mkDefault : Response :=
  { status := 200, headers := ⟨[("Connection", "close")]⟩, body := "" }

/-- The error classifications the client hands to its callback: a
transported I/O error code (modelled by a number), plus the
`std::make_error_code` values appearing literally in src/client.hpp. -/
inductive ErrC where
  | io (n : Nat)
  | errno (n : Nat)
  | hostUnreachable
  | noMessageAvailable
  | invalidArgument
deriving DecidableEq, Repr

/-- One completion-callback invocation: the `std::error_code` argument
(`none` is the success code) and the `Response` argument. -/
structure CbEvent where
  ec : Option ErrC
  response : Response
deriving DecidableEq, Repr

/-- Outcome of one `send` completion: an error code or a sent-byte count. -/
inductive SendOutcome where
  | fail (ec : Nat)
  | sent (n : Nat)
deriving DecidableEq, Repr

/-- Environment of one client request: the outcome of every I/O step.
`resolveOutcome` is the result pair of `IoQueue::async` (error code, or
address list with addresses abstracted to numbers); `socketFd = none`
models `::socket` returning `-1` with `socketErrno` as `errno`;
`connectOutcome` is the completion code of the async connect
(`none` = success); `sendOutcomes` are the successive send completions
(an empty remainder models a completion that never arrives);
`recvOutcome` is the single header-recv completion (`.inr bytes` with an
empty list models `readBytes == 0`). -/
structure ClientEnv where
  resolveOutcome : Sum Nat (List Nat)
  socketFd : Option Nat
  socketErrno : Nat
  connectOutcome : Option Nat
  sendOutcomes : List SendOutcome
  recvOutcome : Sum Nat (List Char)
deriving Repr

/-- Modelled from the spec: `Response::parse` is declared in http.hpp and
its definition is not under src/.  The spec: the status line is
`HTTP/1.x SP code SP reason \r\n`, headers are parsed as for requests
(starting after the status line, an empty line terminates them), and the
remainder is the (unparsed) body. -/
def specHeaderBlock : Nat → List Char → Nat → HeaderMap →
    Option (HeaderMap × Nat)
  | 0, _, lineStart, headers => some (headers, lineStart)
  | fuel + 1, s, lineStart, headers =>
    if lineStart < s.length then
      match fSubFrom ['\r', '\n'] s lineStart with
      | none => none
      | some lineEnd =>
        if lineStart = lineEnd then some (headers, lineStart + 2)
        else
          let line := (s.drop lineStart).take (lineEnd - lineStart)
          match fIdx (· = ':') line with
          | none => none
          | some colon =>
            let name := line.take colon
            let rest := (line.drop (colon + 1)).dropWhile isHttpWhitespace
            let value := rest.takeWhile (fun c => !isHttpWhitespace c)
            specHeaderBlock fuel s (lineEnd + 2) (headers.add ⟨name⟩ ⟨value⟩)
    else some (headers, lineStart)

/-- Modelled from the spec: `Response::parse` (see `specHeaderBlock`). -/
def Response.parse (s : String) : Option Response :=
  let l := s.data
  match fSubFrom ['\r', '\n'] l 0 with
  | none => none
  | some statusLineEnd =>
    let statusLine := l.take statusLineEnd
    match fIdx (· = ' ') statusLine with
    | none => none
    | some sp =>
      let codeStr := ((statusLine.drop (sp + 1)).takeWhile (· ≠ ' '))
      match parseUInt ⟨codeStr⟩ with
      | none => none
      | some code =>
        match specHeaderBlock (l.length + 1) l (statusLineEnd + 2) {} with
        | none => none
        | some (headers, bodyStart) =>
          some { status := code, headers := headers, body := ⟨l.drop bodyStart⟩ }

/-- `ClientSession::serializeRequest` (src/client.hpp, lines 227-249).
`host`, `port` and the connection type's `defaultPort` are passed in. -/
def serializeRequest (host : String) (port defaultPort : Nat) (method : Method)
    (target : String) (headers : HeaderMap) (body : String) : String :=
  method.str ++ " " ++ target ++ " HTTP/1.1\r\n"
    ++ (if headers.contains "Host" then ""
        else "Host: " ++ host
          ++ (if port ≠ defaultPort then ":" ++ toString port else "")
          ++ "\r\n")
    ++ headers.serialize ++ "\r\n" ++ body

/-- The recv-completion callback of `ClientSession::recvHeader`
(src/client.hpp, lines 174-225): each branch that invokes `callback_`
produces one event.  On a recv error or `readBytes == 0` or a parse
failure the callback receives the error and a default-constructed
response; otherwise the Content-Length handling runs (an in-buffer body
shorter than the declared length only logs a TODO and falls through) and
the callback receives the success code and the response. -/
def runRecvHeader (env : ClientEnv) : List CbEvent :=
  match env.recvOutcome with
  | .inl ec => [⟨some (.io ec), Response.mkDefault⟩]
  | .inr [] => [⟨some .hostUnreachable, Response.mkDefault⟩]
  | .inr bytes =>
    match Response.parse ⟨bytes⟩ with
    | none => [⟨some .invalidArgument, Response.mkDefault⟩]
    | some response =>
      match response.headers.get "Content-Length" with
      | none => [⟨none, response⟩]
      | some contentLength =>
        match parseUInt contentLength with
        | none => [⟨some .invalidArgument, Response.mkDefault⟩]
        | some length =>
          if response.body.data.length < length then
            [⟨none, response⟩]
          else
            [⟨none, { response with body := ⟨response.body.data.take length⟩ }⟩]

/-- The send loop of `ClientSession::send` (src/client.hpp, lines
144-172): a send error or a zero-byte send invokes the callback with the
error and a default response and returns; a partial send advances the
cursor and re-arms; a completed send proceeds to `recvHeader`. -/
def runSendLoop (requestLen : Nat) (env : ClientEnv) :
    List SendOutcome → Nat → List CbEvent
  | [], _ => []
  | outcome :: rest, sendCursor =>
    match outcome with
    | .fail ec => [⟨some (.io ec), Response.mkDefault⟩]
    | .sent 0 => [⟨some .noMessageAvailable, Response.mkDefault⟩]
    | .sent n =>
      if sendCursor + n < requestLen then runSendLoop requestLen env rest (sendCursor + n)
      else runRecvHeader env

/-- One full `ClientSession::request` call on a fresh session (so
`callback_` is empty, `connectAddr_.ss_family == AF_UNSPEC` and
`connection_` is null): serialize the request, resolve, connect, send,
receive.  The two error branches inside `connect` (src/client.hpp, lines
122-125 and 131-134) invoke the callback and then fall through without a
`return`: socket-creation failure still submits the async connect, and a
connect-completion error still constructs the transport and calls
`send()`.  This fall-through is kept exactly as in the source. -/
def runClientRequest (host : String) (port defaultPort : Nat) (method : Method)
    (target : String) (headers : HeaderMap) (body : String)
    (env : ClientEnv) : List CbEvent :=
  let requestBuffer := serializeRequest host port defaultPort method target headers body
  match env.resolveOutcome with
  | .inl ec => [⟨some (.io ec), Response.mkDefault⟩]
  | .inr [] => [⟨some .hostUnreachable, Response.mkDefault⟩]
  | .inr (_ :: _) =>
    (match env.socketFd with
      | none => [⟨some (.errno env.socketErrno), Response.mkDefault⟩]
      | some _ => [])
    ++ (match env.connectOutcome with
      | some ec => [⟨some (.io ec), Response.mkDefault⟩]
      | none => [])
    ++ runSendLoop requestBuffer.data.length env env.sendOutcomes 0

/-- The environment of the double-callback run: resolution yields one
address, the socket is created, the async connect completes with error
111 (ECONNREFUSED), and the subsequent send completes with error 32
(EPIPE). -/
def c7Env : ClientEnv :=
  { resolveOutcome := .inr [1], socketFd := some 3, socketErrno := 0,
    connectOutcome := some 111, sendOutcomes := [.fail 32],
    recvOutcome := .inr [] }

/-! ## Predicates and concrete values used by the theorems -/

/-- Shape of a segment produced by `segsOf`: a `/` followed by slash-free
bytes. -/
def ChunkShape (s : List Char) : Prop := ∃ t, s = '/' :: t ∧ '/' ∉ t

/-- A segment that `processSeg` may append: a chunk that is neither `/.`
nor `/..`. -/
def GoodSeg (s : List Char) : Prop :=
  ChunkShape s ∧ s ≠ ['/', '.'] ∧ s ≠ ['/', '.', '.']

/-- An HTTP/1.1 request whose `Connection` header value is `preclosed`
(which contains `close` as a substring without being the `close` token). -/
def preclosedRequest : Request :=
  { method := .get, url := { fullRaw := "/", path := "/" },
    version := "HTTP/1.1", requestLine := "",
    headers := ⟨[("Connection", "preclosed")]⟩, body := "" }

/-- The `Url` produced by parsing `/x/./y` (used as a concrete witness). -/
def c8WitnessUrl : Url :=
  { fullRaw := "/x/./y", path := "/x/y", query := none, params := none,
    fragment := none }

/-! ## Lemmas about the scanning helpers -/

theorem fIdx_eq_none_of (p : Char → Bool) (l : List Char)
    (h : ∀ x ∈ l, p x = false) : fIdx p l = none := by
  induction l with
  | nil => rfl
  | cons x xs ih =>
    have hx := h x (List.mem_cons_self x xs)
    simp [fIdx, hx, ih fun y hy => h y (List.mem_cons_of_mem _ hy)]

theorem fIdx_none_forall (p : Char → Bool) (l : List Char)
    (h : fIdx p l = none) : ∀ x ∈ l, p x = false := by
  induction l with
  | nil => simp
  | cons x xs ih =>
    cases hp : p x with
    | true => simp [fIdx, hp] at h
    | false =>
      simp only [fIdx, hp, Bool.false_eq_true, if_false,
        Option.map_eq_none'] at h
      intro y hy
      rcases List.mem_cons.mp hy with rfl | hy'
      · exact hp
      · exact ih h y hy'

theorem fIdx_some_take (p : Char → Bool) (l : List Char) (j : Nat)
    (h : fIdx p l = some j) : ∀ x ∈ l.take j, p x = false := by
  induction l generalizing j with
  | nil => simp [fIdx] at h
  | cons x xs ih =>
    cases hp : p x with
    | true =>
      simp only [fIdx, hp, if_true, Option.some.injEq] at h
      subst h; simp
    | false =>
      simp only [fIdx, hp, Bool.false_eq_true, if_false,
        Option.map_eq_some'] at h
      obtain ⟨j', hj', rfl⟩ := h
      intro y hy
      simp only [List.take_succ_cons, List.mem_cons] at hy
      rcases hy with rfl | hy'
      · exact hp
      · exact ih j' hj' y hy'

theorem fIdx_some_drop (p : Char → Bool) (l : List Char) (j : Nat)
    (h : fIdx p l = some j) : ∃ c t, l.drop j = c :: t ∧ p c = true := by
  induction l generalizing j with
  | nil => simp [fIdx] at h
  | cons x xs ih =>
    cases hp : p x with
    | true =>
      simp only [fIdx, hp, if_true, Option.some.injEq] at h
      subst h; exact ⟨x, xs, rfl, hp⟩
    | false =>
      simp only [fIdx, hp, Bool.false_eq_true, if_false,
        Option.map_eq_some'] at h
      obtain ⟨j', hj', rfl⟩ := h
      simpa using ih j' hj'

theorem fIdx_append (p : Char → Bool) (t r : List Char) (c : Char)
    (ht : ∀ x ∈ t, p x = false) (hc : p c = true) :
    fIdx p (t ++ c :: r) = some t.length := by
  induction t with
  | nil => simp [fIdx, hc]
  | cons x xs ih =>
    have hx := ht x (List.mem_cons_self x xs)
    simp [fIdx, hx, ih fun y hy => ht y (List.mem_cons_of_mem _ hy)]

theorem rfindIdx_eq_none_of (c : Char) (l : List Char) (h : c ∉ l) :
    rfindIdx c l = none := by
  induction l with
  | nil => rfl
  | cons x xs ih =>
    have hx : ¬x = c := fun hc => h (by simp [hc])
    simp [rfindIdx, ih fun hc => h (List.mem_cons_of_mem _ hc), hx]

theorem rfindIdx_append (xs t : List Char) (h : '/' ∉ t) :
    rfindIdx '/' (xs ++ '/' :: t) = some xs.length := by
  induction xs with
  | nil => simp [rfindIdx, rfindIdx_eq_none_of '/' t h]
  | cons x l ih => simp [rfindIdx, ih]

/-! ## The loop of removeDotSegments is the fold over the segments -/

theorem segsRun_fuel (f₁ : Nat) : ∀ (f₂ : Nat) (l : List Char),
    l.length ≤ f₁ → l.length ≤ f₂ → segsRun f₁ l = segsRun f₂ l := by
  induction f₁ with
  | zero =>
    intro f₂ l h₁ _
    have : l = [] := List.eq_nil_of_length_eq_zero (Nat.le_zero.mp h₁)
    subst this
    cases f₂ <;> rfl
  | succ f ih =>
    intro f₂ l h₁ h₂
    cases l with
    | nil => cases f₂ <;> rfl
    | cons c rest =>
      cases f₂ with
      | zero => simp at h₂
      | succ f₂' =>
        simp only [segsRun]
        cases hj : fIdx (· = '/') rest with
        | none => rfl
        | some j =>
          have hd : (rest.drop j).length ≤ rest.length := by
            simp [List.length_drop]
          have hr₁ : rest.length ≤ f := by
            simp only [List.length_cons] at h₁; omega
          have hr₂ : rest.length ≤ f₂' := by
            simp only [List.length_cons] at h₂; omega
          show (c :: rest.take j) :: segsRun f (rest.drop j) =
            (c :: rest.take j) :: segsRun f₂' (rest.drop j)
          rw [ih f₂' (rest.drop j) (le_trans hd hr₁) (le_trans hd hr₂)]

theorem segsOf_cons (c : Char) (rest : List Char) :
    segsOf (c :: rest) =
      match fIdx (· = '/') rest with
      | none => [c :: rest]
      | some j => (c :: rest.take j) :: segsOf (rest.drop j) := by
  show segsRun (rest.length + 1) (c :: rest) = _
  simp only [segsRun]
  cases hj : fIdx (· = '/') rest with
  | none => rfl
  | some j =>
    have hd : (rest.drop j).length ≤ rest.length := by
      simp [List.length_drop]
    show (c :: rest.take j) :: segsRun rest.length (rest.drop j) =
      (c :: rest.take j) :: segsOf (rest.drop j)
    rw [segsRun_fuel rest.length (rest.drop j).length (rest.drop j) hd (le_refl _)]
    rfl

theorem rdsRun_eq_foldl (fuel : Nat) : ∀ (input output : List Char),
    input.length ≤ fuel →
    rdsRun fuel input output = (segsOf input).foldl processSeg output := by
  induction fuel with
  | zero =>
    intro input output h
    have : input = [] := List.eq_nil_of_length_eq_zero (Nat.le_zero.mp h)
    subst this; rfl
  | succ f ih =>
    intro input output h
    cases input with
    | nil => rfl
    | cons c rest =>
      simp only [rdsRun]
      by_cases hone : c :: rest = ['/']
      · rw [if_pos hone]
        obtain ⟨rfl, rfl⟩ := List.cons_eq_cons.mp hone
        have hsegs : segsOf ['/'] = [['/']] := rfl
        rw [hsegs]
        simp [processSeg]
      · rw [if_neg hone, segsOf_cons]
        cases hj : fIdx (· = '/') rest with
        | none => rfl
        | some j =>
          have hlen : (rest.drop j).length ≤ f := by
            simp only [List.length_cons] at h
            simp only [List.length_drop]
            omega
          exact ih (rest.drop j) (processSeg output (c :: rest.take j)) hlen

theorem removeDotSegmentsL_eq_rdsSpecL (l : List Char) :
    removeDotSegmentsL l = rdsSpecL l := by
  unfold removeDotSegmentsL rdsSpecL
  rw [rdsRun_eq_foldl l.length l [] (le_refl _)]
  rfl

/-! ## Segment chunks and the no-dot-segment invariant of the output -/

theorem segsRun_chunks (fuel : Nat) : ∀ l : List Char, l.length ≤ fuel →
    l.head? = some '/' → ∀ s ∈ segsRun fuel l, ChunkShape s := by
  induction fuel with
  | zero =>
    intro l h hh s hs
    have : l = [] := List.eq_nil_of_length_eq_zero (Nat.le_zero.mp h)
    subst this; simp at hh
  | succ f ih =>
    intro l h hh s hs
    cases l with
    | nil => simp at hh
    | cons c rest =>
      have hc : c = '/' := by simpa using hh
      subst hc
      simp only [segsRun] at hs
      cases hj : fIdx (· = '/') rest with
      | none =>
        rw [hj] at hs
        simp only [List.mem_singleton] at hs
        subst hs
        refine ⟨rest, rfl, fun hmem => ?_⟩
        have := fIdx_none_forall _ _ hj '/' hmem
        simp at this
      | some j =>
        rw [hj] at hs
        simp only [List.mem_cons] at hs
        rcases hs with rfl | hs'
        · refine ⟨rest.take j, rfl, fun hmem => ?_⟩
          have := fIdx_some_take _ _ _ hj '/' hmem
          simp at this
        · obtain ⟨c', t', hdrop, hc'⟩ := fIdx_some_drop _ _ _ hj
          have hc'' : c' = '/' := by simpa using hc'
          subst hc''
          have hhead : (rest.drop j).head? = some '/' := by rw [hdrop]; rfl
          have hlen : (rest.drop j).length ≤ f := by
            simp only [List.length_cons] at h
            simp only [List.length_drop]
            omega
          exact ih (rest.drop j) hlen hhead s hs'

theorem segsOf_chunks (l : List Char) (hh : l.head? = some '/') :
    ∀ s ∈ segsOf l, ChunkShape s :=
  segsRun_chunks l.length l (le_refl _) hh

theorem foldl_processSeg_chunks (segs : List (List Char))
    (hs : ∀ s ∈ segs, ChunkShape s) :
    ∀ L : List (List Char), (∀ c ∈ L, GoodSeg c) →
      ∃ L' : List (List Char), (∀ c ∈ L', GoodSeg c) ∧
        segs.foldl processSeg L.flatten = L'.flatten := by
  induction segs with
  | nil => intro L hL; exact ⟨L, hL, rfl⟩
  | cons s segs ih =>
    intro L hL
    have hcs : ChunkShape s := hs s (List.mem_cons_self s segs)
    have hrest : ∀ x ∈ segs, ChunkShape x :=
      fun x hx => hs x (List.mem_cons_of_mem _ hx)
    by_cases h1 : s = ['/', '.']
    · subst h1
      have hstep : processSeg L.flatten ['/', '.'] = L.flatten := by
        simp [processSeg]
      rw [List.foldl_cons, hstep]
      exact ih hrest L hL
    · by_cases h2 : s = ['/', '.', '.']
      · subst h2
        have htr : processSeg L.flatten ['/', '.', '.'] = L.dropLast.flatten := by
          rcases L.eq_nil_or_concat' with rfl | ⟨L₀, b, rfl⟩
          · simp [processSeg, rfindIdx]
          · obtain ⟨t, hb, hnt⟩ := (hL b (by simp)).1
            subst hb
            simp only [processSeg, if_neg (by decide : ¬(['/', '.', '.'] = ['/', '.'])),
              if_pos rfl]
            have hfl : (L₀ ++ [('/' : Char) :: t]).flatten = L₀.flatten ++ '/' :: t := by
              simp
            rw [hfl, rfindIdx_append _ _ hnt, List.dropLast_concat]
            exact List.take_left L₀.flatten (('/' : Char) :: t)
        rw [List.foldl_cons, htr]
        exact ih hrest L.dropLast fun c hc => hL c (List.mem_of_mem_dropLast hc)
      · have happ : processSeg L.flatten s = (L ++ [s]).flatten := by
          simp [processSeg, h1, h2]
        rw [List.foldl_cons, happ]
        refine ih hrest (L ++ [s]) fun c hc => ?_
        rcases List.mem_append.mp hc with hc' | hc'
        · exact hL c hc'
        · rw [List.mem_singleton.mp hc']
          exact ⟨hcs, h1, h2⟩

theorem segsOf_flatten : ∀ L : List (List Char),
    (∀ c ∈ L, ChunkShape c) → segsOf L.flatten = L := by
  intro L
  induction L with
  | nil => intro _; rfl
  | cons c L' ih =>
    intro h
    obtain ⟨t, rfl, hnt⟩ := h _ (List.mem_cons_self _ _)
    have hfl : ((('/' : Char) :: t) :: L').flatten = '/' :: (t ++ L'.flatten) := by
      simp
    rw [hfl, segsOf_cons]
    have hpt : ∀ x ∈ t, (decide (x = '/') : Bool) = false := by
      intro x hx
      simp only [decide_eq_false_iff_not]
      rintro rfl
      exact hnt hx
    cases L' with
    | nil =>
      have hidx : fIdx (· = '/') (t ++ List.flatten ([] : List (List Char))) = none := by
        simp only [List.flatten_nil, List.append_nil]
        exact fIdx_eq_none_of _ t hpt
      rw [hidx]
      simp
    | cons c₂ L'' =>
      obtain ⟨t₂, hc₂, _⟩ := h c₂ (by simp)
      subst hc₂
      have hshape : t ++ ((('/' : Char) :: t₂) :: L'').flatten =
          t ++ '/' :: (t₂ ++ L''.flatten) := by simp
      have hidx : fIdx (· = '/') (t ++ ((('/' : Char) :: t₂) :: L'').flatten) =
          some t.length := by
        rw [hshape]
        exact fIdx_append _ t _ '/' hpt (by simp)
      rw [hidx]
      show ('/' :: (t ++ ((('/' : Char) :: t₂) :: L'').flatten).take t.length) ::
          segsOf ((t ++ ((('/' : Char) :: t₂) :: L'').flatten).drop t.length) = _
      have htake : (t ++ ((('/' : Char) :: t₂) :: L'').flatten).take t.length = t := by
        rw [hshape]; exact List.take_left _ _
      have hdrop : (t ++ ((('/' : Char) :: t₂) :: L'').flatten).drop t.length =
          ((('/' : Char) :: t₂) :: L'').flatten := by
        rw [hshape]
        exact List.drop_left t ('/' :: (t₂ ++ L''.flatten))
      rw [htake, hdrop, ih fun x hx => h x (List.mem_cons_of_mem _ hx)]

theorem flatten_head_slash (L : List (List Char))
    (h : ∀ c ∈ L, ChunkShape c) (hne : L ≠ []) :
    L.flatten.head? = some '/' := by
  cases L with
  | nil => exact absurd rfl hne
  | cons c L' =>
    obtain ⟨t, rfl, _⟩ := h c (List.mem_cons_self _ _)
    simp

theorem removeDotSegmentsL_good (l : List Char) (h : l.head? = some '/') :
    (removeDotSegmentsL l).head? = some '/' ∧ removeDotSegmentsL l ≠ [] ∧
      hasDotSegments (removeDotSegmentsL l) = false := by
  have hchunks : ∀ s ∈ segsOf l, ChunkShape s := segsOf_chunks l h
  obtain ⟨L', hL', hflat⟩ :=
    foldl_processSeg_chunks (segsOf l) hchunks [] (by simp)
  have hflat' : (segsOf l).foldl processSeg [] = L'.flatten := by
    simpa using hflat
  unfold removeDotSegmentsL
  rw [rdsRun_eq_foldl l.length l [] (le_refl _), hflat']
  by_cases hnil : L'.flatten = []
  · rw [hnil]
    simp only [if_pos rfl]
    exact ⟨rfl, by simp, by decide⟩
  · rw [if_neg hnil]
    have hLne : L' ≠ [] := by rintro rfl; exact hnil rfl
    refine ⟨flatten_head_slash L' (fun c hc => (hL' c hc).1) hLne, hnil, ?_⟩
    unfold hasDotSegments
    rw [segsOf_flatten L' fun c hc => (hL' c hc).1]
    simp only [List.any_eq_false]
    intro s hs
    obtain ⟨-, h1, h2⟩ := hL' s hs
    simp [h1, h2]

/-! ## Shape of every successfully parsed URL path -/

theorem urlFinish_shape (full rem : List Char) (q p f : Option String)
    (u : Url) (hp : urlFinish full rem q p f = some u) :
    ∃ r : List Char, u.path = ⟨removeDotSegmentsL ('/' :: r)⟩ := by
  unfold urlFinish at hp
  split at hp
  · rename_i rest
    refine ⟨rest, ?_⟩
    cases hp
    rfl
  · exact absurd hp (by simp)

theorem urlParams_shape (full rem : List Char) (q f : Option String)
    (u : Url) (hp : urlParams full rem q f = some u) :
    ∃ r : List Char, u.path = ⟨removeDotSegmentsL ('/' :: r)⟩ := by
  unfold urlParams at hp
  split at hp
  · exact urlFinish_shape _ _ _ _ _ _ hp
  · exact urlFinish_shape _ _ _ _ _ _ hp

theorem urlQuery_shape (full rem : List Char) (f : Option String)
    (u : Url) (hp : urlQuery full rem f = some u) :
    ∃ r : List Char, u.path = ⟨removeDotSegmentsL ('/' :: r)⟩ := by
  unfold urlQuery at hp
  split at hp
  · exact urlParams_shape _ _ _ _ _ hp
  · exact urlParams_shape _ _ _ _ _ hp

theorem urlAuthority_shape (full rem : List Char) (f : Option String)
    (u : Url) (hp : urlAuthority full rem f = some u) :
    ∃ r : List Char, u.path = ⟨removeDotSegmentsL ('/' :: r)⟩ := by
  unfold urlAuthority at hp
  split at hp
  · split at hp
    · exact urlQuery_shape _ _ _ _ hp
    · exact urlQuery_shape _ _ _ _ hp
  · exact urlQuery_shape _ _ _ _ hp

theorem urlScheme_shape (full rem : List Char) (f : Option String)
    (u : Url) (hp : urlScheme full rem f = some u) :
    ∃ r : List Char, u.path = ⟨removeDotSegmentsL ('/' :: r)⟩ := by
  unfold urlScheme at hp
  split at hp
  · split at hp
    · exact urlAuthority_shape _ _ _ _ hp
    · exact urlAuthority_shape _ _ _ _ hp
  · exact urlAuthority_shape _ _ _ _ hp

theorem urlFragment_shape (l : List Char) (u : Url)
    (hp : urlFragment l = some u) :
    ∃ r : List Char, u.path = ⟨removeDotSegmentsL ('/' :: r)⟩ := by
  unfold urlFragment at hp
  split at hp
  · split at hp
    · exact absurd hp (by simp)
    · exact urlScheme_shape _ _ _ _ hp
  · split at hp
    · exact absurd hp (by simp)
    · exact urlScheme_shape _ _ _ _ hp

theorem urlParseL_shape (l : List Char) (u : Url) (hp : urlParseL l = some u) :
    l = ['*'] ∨ ∃ r : List Char, u.path = ⟨removeDotSegmentsL ('/' :: r)⟩ := by
  unfold urlParseL at hp
  by_cases hstar : l = ['*']
  · exact Or.inl hstar
  · rw [if_neg hstar] at hp
    exact Or.inr (urlFragment_shape _ _ hp)

/-! ## The substring scan agrees with list-infix containment -/

theorem fSubAux_isSome_iff (pat : List Char) : ∀ (l : List Char) (i : Nat),
    (fSubAux pat l i).isSome = true ↔ pat <:+: l := by
  intro l
  induction l with
  | nil =>
    intro i
    by_cases hp : pat = [] <;> simp [fSubAux, hp]
  | cons x xs ih =>
    intro i
    by_cases hpre : pat.isPrefixOf (x :: xs)
    · simp only [fSubAux, if_pos hpre, Option.isSome_some, true_iff]
      exact (List.isPrefixOf_iff_prefix.mp hpre).isInfix
    · simp only [fSubAux, if_neg hpre, ih (i + 1)]
      constructor
      · intro hinf
        exact List.infix_cons_iff.mpr (Or.inr hinf)
      · intro hinf
        rcases List.infix_cons_iff.mp hinf with hpre' | hinf'
        · exact absurd (List.isPrefixOf_iff_prefix.mpr hpre') hpre
        · exact hinf'

theorem fSubFrom_isSome_iff (pat l : List Char) :
    (fSubFrom pat l 0).isSome = true ↔ pat <:+: l := by
  unfold fSubFrom
  rw [List.drop_zero]
  exact fSubAux_isSome_iff pat l 0

/-! ## Claim theorems -/

/-- C1: the claim says that for the single read
`POST /p HTTP/1.1\r\nHost: h\r\nContent-Length: 5\r\n\r\nhello` the server
binds the body `hello` as a substring of the header buffer and invokes the
handler without a further read.  Evaluating the code: `Request::parse`
never assigns `req.body`, so the parsed body is empty and the
Content-Length handling of `readRequest` takes the read-more branch
(`readRequestBody` with an empty buffered body and 5 outstanding bytes)
instead of invoking the handler. -/
theorem c1_post_body_not_bound_from_header_buffer :
    handleRequestHeaders 2048 1024
        "POST /p HTTP/1.1\r\nHost: h\r\nContent-Length: 5\r\n\r\nhello" =
      .readBody "" 5 ∧
    (Request.parse 2048
        "POST /p HTTP/1.1\r\nHost: h\r\nContent-Length: 5\r\n\r\nhello").map
      Request.body = some "" := by decide

/-- C2: the claim says serializing a header multimap after a valid request
line and parsing the result yields the multimap back, the first header
line being read immediately after the request line's CRLF.  Evaluating the
code on the singleton multimap `Host: h`: header parsing starts two bytes
late (`lineStart = requestLineEnd + 2; lineStart += 2;`), so the parsed
multimap is `st: h`, not `Host: h`. -/
theorem c2_header_roundtrip_first_header_mangled :
    HeaderMap.serialize ⟨[("Host", "h")]⟩ = "Host: h\r\n" ∧
    (Request.parse 2048
        ("GET / HTTP/1.1\r\n" ++ HeaderMap.serialize ⟨[("Host", "h")]⟩ ++ "\r\n")).map
      (fun r => r.headers) = some ⟨[("st", "h")]⟩ := by decide

/-- C3: the claim says `parse(R).request_line` equals the bytes of R up to
the first CRLF.  Evaluating the code on the well-formed request
`GET /index HTTP/1.1\r\nHost: x\r\n\r\n`: `Request::parse` never assigns
`req.requestLine`, so the field stays empty instead of
`GET /index HTTP/1.1`. -/
theorem c3_request_line_not_retained :
    (Request.parse 2048 "GET /index HTTP/1.1\r\nHost: x\r\n\r\n").map
        Request.requestLine = some "" ∧
    "" ≠ "GET /index HTTP/1.1" := by decide

/-- C4: for every non-empty input beginning with `/`, removeDotSegments
drops each `/.` segment, drops each `/..` segment while truncating the
output at its last `/`, appends every other segment verbatim, emits `/`
when the output would be empty and preserves a bare trailing `/` (this is
`rdsSpec`, the algorithm as the specification words it), and it maps the
six specification examples as claimed. -/
theorem c4_removeDotSegments_spec :
    (∀ s : String, s.data.head? = some '/' → removeDotSegments s = rdsSpec s) ∧
    removeDotSegments "/a/b/c/./../../g" = "/a/g" ∧
    removeDotSegments "/mid/content=5/../6" = "/mid/6" ∧
    removeDotSegments "/" = "/" ∧
    removeDotSegments "/./" = "/" ∧
    removeDotSegments "/../" = "/" ∧
    removeDotSegments "/a/" = "/a/" := by
  refine ⟨fun s _ => ?_, by decide, by decide, by decide, by decide,
    by decide, by decide⟩
  unfold removeDotSegments rdsSpec
  rw [removeDotSegmentsL_eq_rdsSpecL]

/-- C4 witness: the equivalence applied at the concrete input `/a/`. -/
theorem c4_removeDotSegments_spec_witness :
    ("/a/" : String).data.head? = some '/' ∧
      removeDotSegments "/a/" = rdsSpec "/a/" :=
  ⟨by decide, c4_removeDotSegments_spec.1 "/a/" (by decide)⟩

/-- C5: the claim says an absolute-URI input has its authority skipped up
to the next `/` and parses successfully with the normalized path.
Evaluating the code at `http://example.org/foo`: the authority skip
`urlStr.substr(2, urlStr.find("/", 2))` uses the slash index as a length,
leaving `example.org/f`, which fails the leading-slash check, so parse
returns failure instead of a URL with path `/foo`. -/
theorem c5_absolute_uri_rejected :
    Url.parse "http://example.org/foo" = none := by decide

/-- C6: the claim says the scheme prefix is dropped only when every byte
before the colon is in `[A-Za-z0-9+.-]`, so `/foo:bar` keeps its prefix
and parses with path `/foo:bar`.  Evaluating the code: `isAlphaNum`'s last
clause `(ch >= 'A' || ch <= 'Z')` accepts `/`, the prefix `/foo` passes
the scheme test, the bytes up to the colon are dropped leaving `bar`, and
parse returns failure. -/
theorem c6_scheme_prefix_wrongly_dropped :
    isSchemeChar '/' = true ∧ Url.parse "/foo:bar" = none := by decide

/-- C7: the claim says the completion callback is invoked exactly once per
accepted `request` call.  Evaluating the code on a run whose async connect
completes with error 111 and whose subsequent send completes with error
32: the connect error branch calls the callback and falls through without
returning, so `send()` still runs and its error branch calls the callback
a second time. -/
theorem c7_callback_invoked_twice :
    runClientRequest "example.org" 80 80 .get "/" {} "" c7Env =
      [⟨some (.io 111), Response.mkDefault⟩,
       ⟨some (.io 32), Response.mkDefault⟩] ∧
    (runClientRequest "example.org" 80 80 .get "/" {} "" c7Env).length = 2 := by
  decide

/-- C8 counterexample: the claim includes the asterisk form among the
inputs whose parsed path begins with `/`, but `Url.parse "*"` succeeds
with the distinct asterisk path, which does not begin with `/`. -/
theorem c8_asterisk_counterexample :
    (Url.parse "*").map Url.path = some "*" ∧
      (Url.parse "*").map (fun u => decide (u.path.data.head? = some '/')) =
        some false := by decide

/-- C8 (amended): for every accepted input other than `"*"`, the path of
the returned URL begins with `/`, is never empty, and has no `/.` or
`/..` segments. -/
theorem c8_path_invariant_amended (s : String) (u : Url)
    (hp : Url.parse s = some u) (hs : s ≠ "*") :
    u.path.data.head? = some '/' ∧ u.path ≠ "" ∧
      hasDotSegments u.path.data = false := by
  rcases urlParseL_shape s.data u hp with hstar | ⟨r, hpath⟩
  · exact absurd (String.ext hstar) hs
  · rw [hpath]
    obtain ⟨h1, h2, h3⟩ := removeDotSegmentsL_good ('/' :: r) rfl
    refine ⟨h1, ?_, h3⟩
    intro hc
    apply h2
    have := congrArg String.data hc
    simpa using this

/-- C8 witness: the amended invariant applied at the concrete accepted
input `/x/./y`. -/
theorem c8_path_invariant_amended_witness :
    Url.parse "/x/./y" = some c8WitnessUrl ∧ ("/x/./y" : String) ≠ "*" ∧
      (c8WitnessUrl.path.data.head? = some '/' ∧ c8WitnessUrl.path ≠ "" ∧
        hasDotSegments c8WitnessUrl.path.data = false) :=
  ⟨by decide, by decide,
    c8_path_invariant_amended "/x/./y" c8WitnessUrl (by decide) (by decide)⟩

/-- C9: the keep-alive decision matches by substring: a first `Connection`
header value containing `close` anywhere disables keep-alive (taking
precedence over `keep-alive`), a value containing `keep-alive` enables
it, and otherwise keep-alive holds iff the version is exactly
`HTTP/1.1`; in particular the value `preclosed` disables keep-alive on an
HTTP/1.1 request. -/
theorem c9_keepalive_substring_semantics :
    (∀ (r : Request) (v : String), r.headers.get "Connection" = some v →
        "close".data <:+: v.data → getKeepAlive r = false) ∧
    (∀ (r : Request) (v : String), r.headers.get "Connection" = some v →
        ¬"close".data <:+: v.data → "keep-alive".data <:+: v.data →
        getKeepAlive r = true) ∧
    (∀ (r : Request) (v : String), r.headers.get "Connection" = some v →
        ¬"close".data <:+: v.data → ¬"keep-alive".data <:+: v.data →
        (getKeepAlive r = true ↔ r.version = "HTTP/1.1")) ∧
    (∀ r : Request, r.headers.get "Connection" = none →
        (getKeepAlive r = true ↔ r.version = "HTTP/1.1")) ∧
    getKeepAlive preclosedRequest = false := by
  refine ⟨?_, ?_, ?_, ?_, by decide⟩
  · intro r v hget hsub
    simp only [getKeepAlive, hget]
    rw [if_pos ((fSubFrom_isSome_iff _ _).mpr hsub)]
  · intro r v hget hncl hka
    simp only [getKeepAlive, hget]
    rw [if_neg fun hc => hncl ((fSubFrom_isSome_iff _ _).mp hc),
      if_pos ((fSubFrom_isSome_iff _ _).mpr hka)]
  · intro r v hget hncl hnka
    simp only [getKeepAlive, hget]
    rw [if_neg fun hc => hncl ((fSubFrom_isSome_iff _ _).mp hc),
      if_neg fun hc => hnka ((fSubFrom_isSome_iff _ _).mp hc)]
    simp
  · intro r hget
    simp only [getKeepAlive, hget]
    simp

/-- C9 witness: the `close`-substring clause applied to the concrete
request whose `Connection` header value is `preclosed`. -/
theorem c9_keepalive_substring_semantics_witness :
    preclosedRequest.headers.get "Connection" = some "preclosed" ∧
      getKeepAlive preclosedRequest = false :=
  ⟨by decide,
    c9_keepalive_substring_semantics.1 preclosedRequest "preclosed"
      (by decide) (by decide)⟩

/-- C10: `Request::parse` does not require the header block to be
terminated by an empty line: `GET / HTTP/1.1\r\n` parses successfully into
a request with an empty header map. -/
theorem c10_headers_without_terminating_empty_line :
    Request.parse 2048 "GET / HTTP/1.1\r\n" =
      some { method := .get, url := { fullRaw := "/", path := "/" },
             version := "HTTP/1.1", requestLine := "", headers := ⟨[]⟩,
             body := "" } := by decide
